import Mathlib

set_option maxRecDepth 8192

/-!
Verification of the `byteset` crate (`src/lib.rs`, `src/iter.rs`, `src/ops.rs`).

A `ByteSet` wraps a single `ethnum::u256`; we model that 256-bit word as a
natural number below `2 ^ 256`.  All operations are translated directly from
the Rust source; iterator state (`core::ops::RangeInclusive<u8>` plus the
borrowed set) is modelled explicitly.
-/

namespace Byteset

/-- Modulus of the underlying 256-bit word. -/
def u256size : Nat := 2 ^ 256

/-- Models the `ethnum::u256` bitwise complement `!x` (all 256 bits flipped). -/
def u256not (x : Nat) : Nat := x ^^^ (u256size - 1)

/-- Models `Sub::sub` on `ethnum::u256` (used by `bin_op!(impl Sub for ByteSet: sub)`
in `ops.rs`): arithmetic subtraction of 256-bit integers.  An arithmetic
underflow is a runtime failure in Rust (a panic when overflow checks are
enabled), modelled here as `none`. -/
def u256sub (a b : Nat) : Option Nat := if b ≤ a then some (a - b) else none

namespace ByteSet

/-- Models `ByteSet::mask`: `u256::ONE << val` where `val : u8`. -/
def mask (val : Nat) : Nat := 1 <<< val

/-- Models `ByteSet::contains`: `(self.0 & Self::mask(val)) != 0`. -/
def contains (s val : Nat) : Bool := (s &&& mask val) != 0

/-- Models `ByteSet::len`: `self.0.count_ones()`, the number of set bits of
the 256-bit word. -/
def len (s : Nat) : Nat := ((List.range 256).filter (fun i => s.testBit i)).length

/-- Models `ByteSet::min`: `trailing_zeros` on the word, mapped to `Some` for
results `0..=255` and `None` for `256`; i.e. the position of the lowest set
bit, if any. -/
def min? (s : Nat) : Option Nat := (List.range 256).find? (fun i => s.testBit i)

/-- Descending list `[n-1, n-2, ..., 0]`; used to express the highest-set-bit
search performed by `leading_zeros`. -/
def descRange : Nat → List Nat
  | 0 => []
  | n + 1 => n :: descRange n

/-- Models `ByteSet::max`: `255 - leading_zeros`, `None` when the word is zero;
i.e. the position of the highest set bit, if any. -/
def max? (s : Nat) : Option Nat := (descRange 256).find? (fun i => s.testBit i)

/-- Models the iteration state of a `core::ops::RangeInclusive<u8>`: the
current `start` and `end` bounds together with the `exhausted` flag that the
standard library sets after yielding the final element. -/
structure RangeIncl where
  lo : Nat
  hi : Nat
  exhausted : Bool
deriving DecidableEq

/-- Models `RangeInclusive::is_empty`. -/
def RangeIncl.isEmpty (r : RangeIncl) : Bool := r.exhausted || decide (r.hi < r.lo)

/-- Models `Iterator::next` for `RangeInclusive<u8>`. -/
def RangeIncl.next (r : RangeIncl) : Option Nat × RangeIncl :=
  if r.isEmpty then (none, r)
  else if r.lo < r.hi then (some r.lo, ⟨r.lo + 1, r.hi, r.exhausted⟩)
  else (some r.lo, ⟨r.lo, r.hi, true⟩)

/-- Models `DoubleEndedIterator::next_back` for `RangeInclusive<u8>`. -/
def RangeIncl.nextBack (r : RangeIncl) : Option Nat × RangeIncl :=
  if r.isEmpty then (none, r)
  else if r.lo < r.hi then (some r.hi, ⟨r.lo, r.hi - 1, r.exhausted⟩)
  else (some r.hi, ⟨r.lo, r.hi, true⟩)

/-- Models `ExactSizeIterator::len` for `RangeInclusive<u8>`. -/
def RangeIncl.length (r : RangeIncl) : Nat :=
  if r.isEmpty then 0 else r.hi - r.lo + 1

/-- The values a `RangeInclusive<u8>` iterator state will still yield, front to
back (specification-side helper for the proofs). -/
def RangeIncl.toList (r : RangeIncl) : List Nat :=
  if r.isEmpty then [] else List.range' r.lo (r.hi + 1 - r.lo)

/-- Models `ByteSet::range`: `min..=max` when both exist, else the sentinel
empty range `1..=0`. -/
def range (s : Nat) : RangeIncl :=
  match min? s, max? s with
  | some mn, some mx => ⟨mn, mx, false⟩
  | _, _ => ⟨1, 0, false⟩

/-- Front-to-back trace of the element iterator (`IterImpl::next` in
`iter.rs`): repeatedly pull from the range, keeping the values the set
contains.  Each successful pull shrinks `RangeIncl.length` by exactly one, so
a fuel equal to the initial length is enough to reach exhaustion. -/
def iterFrontFuel (s : Nat) : Nat → RangeIncl → List Nat
  | 0, _ => []
  | fuel + 1, r =>
    match r.next with
    | (none, _) => []
    | (some val, r') =>
      if contains s val then val :: iterFrontFuel s fuel r'
      else iterFrontFuel s fuel r'

/-- All elements produced by `ByteSet::iter` consumed from the front. -/
def iterFront (s : Nat) : List Nat := iterFrontFuel s (range s).length (range s)

/-- Back-to-front trace of the element iterator (`IterImpl::next_back`). -/
def iterBackFuel (s : Nat) : Nat → RangeIncl → List Nat
  | 0, _ => []
  | fuel + 1, r =>
    match r.nextBack with
    | (none, _) => []
    | (some val, r') =>
      if contains s val then val :: iterBackFuel s fuel r'
      else iterBackFuel s fuel r'

/-- All elements produced by `ByteSet::iter` consumed from the back. -/
def iterBack (s : Nat) : List Nat := iterBackFuel s (range s).length (range s)

/-- Models the state of `PairsImpl` (`iter.rs`): the remaining
`RangeInclusive<u8>` plus the set. -/
structure PairsImpl where
  range : RangeIncl
  set : Nat
deriving DecidableEq

/-- Models `PairsImpl::new`: the full range `u8::MIN..=u8::MAX`. -/
def PairsImpl.new (s : Nat) : PairsImpl := ⟨⟨0, 255, false⟩, s⟩

/-- Models `Iterator::next` for `PairsImpl`. -/
def PairsImpl.next (p : PairsImpl) : Option (Nat × Bool) × PairsImpl :=
  match p.range.next with
  | (none, r') => (none, ⟨r', p.set⟩)
  | (some val, r') => (some (val, contains p.set val), ⟨r', p.set⟩)

/-- Models `DoubleEndedIterator::next_back` for `PairsImpl`. -/
def PairsImpl.nextBack (p : PairsImpl) : Option (Nat × Bool) × PairsImpl :=
  match p.range.nextBack with
  | (none, r') => (none, ⟨r', p.set⟩)
  | (some val, r') => (some (val, contains p.set val), ⟨r', p.set⟩)

/-- Models `ExactSizeIterator::len` for `PairsImpl`: `self.range.len()`. -/
def PairsImpl.length (p : PairsImpl) : Nat := p.range.length

/-- Drives a `PairsImpl` through a sequence of pulls (`false` = `next`,
`true` = `next_back`), collecting every produced pair and the final state. -/
def PairsImpl.run : PairsImpl → List Bool → List (Nat × Bool) × PairsImpl
  | p, [] => ([], p)
  | p, back :: moves =>
    match (if back then p.nextBack else p.next) with
    | (none, p') => p'.run moves
    | (some x, p') =>
      let rest := p'.run moves
      (x :: rest.1, rest.2)

/-- Models `ByteSet::insert`: `self.0 |= mask; prev != self.0`; returns the new
word and the returned `bool`. -/
def insert (s val : Nat) : Nat × Bool :=
  let new := s ||| mask val
  (new, s != new)

/-- Models `ByteSet::remove`: `self.0 &= !mask; prev != self.0`; returns the
new word and the returned `bool`. -/
def remove (s val : Nat) : Nat × Bool :=
  let new := s &&& u256not (mask val)
  (new, s != new)

/-- Models `ByteSet::toggle`: `self.0 ^= mask; (mask & self.0) == 0`; returns
the new word and the returned `bool`. -/
def toggle (s val : Nat) : Nat × Bool :=
  let new := s ^^^ mask val
  (new, (mask val &&& new) == 0)

/-- Models `ByteSet::take`: `if self.remove(val) { Some(val) } else { None }`;
returns the new word and the returned `Option`. -/
def take (s val : Nat) : Nat × Option Nat :=
  let r := remove s val
  (r.1, if r.2 then some val else none)

/-- Models `ByteSet::union`: `self | other` (bitwise or on the word). -/
def union (a b : Nat) : Nat := a ||| b

/-- Models `ByteSet::intersection`: `self & other` (bitwise and on the word). -/
def intersection (a b : Nat) : Nat := a &&& b

/-- Models `ByteSet::symmetric_difference`: `self ^ other` (bitwise xor). -/
def symmetric_difference (a b : Nat) : Nat := a ^^^ b

/-- Models `ByteSet::difference`: `self - other`, which through
`bin_op!(impl Sub for ByteSet: sub)` in `ops.rs` is the arithmetic
subtraction of the two `u256` words (see `u256sub`), not a bitwise
operation. -/
def difference (a b : Nat) : Option Nat := u256sub a b

/-- Models `From<&[bool; 256]> for ByteSet`: start empty, insert every index
whose entry is `true`. -/
def fromBoolArray (vals : List Bool) : Nat :=
  (List.range 256).foldl (fun s i => if vals.getD i false then (insert s i).1 else s) 0

/-- Models `From<&ByteSet> for [bool; 256]`: start all-`false`, set the entry
of every element produced by the element iterator. -/
def toBoolArray (s : Nat) : List Bool :=
  (iterFront s).foldl (fun arr val => arr.set val true) (List.replicate 256 false)

/-- Models `ByteSet::retain`: iterate over a copy of the set (the snapshot
`self.clone()`), removing from the live set every value the predicate
rejects. -/
def retain (s : Nat) (f : Nat → Bool) : Nat :=
  (iterFront s).foldl (fun acc val => if !f val then (remove acc val).1 else acc) s

/-! ### Bit-level lemmas -/

theorem mask_eq (v : Nat) : mask v = 2 ^ v := by
  simp [mask, Nat.shiftLeft_eq]

theorem contains_eq_testBit (s v : Nat) : contains s v = s.testBit v := by
  have hp := Nat.two_pow_pos v
  cases h : s.testBit v <;> simp [contains, mask_eq, Nat.and_two_pow, h]

theorem testBit_u256not (x i : Nat) :
    (u256not x).testBit i = ((x.testBit i).xor (decide (i < 256))) := by
  unfold u256not u256size
  rw [Nat.testBit_xor, Nat.testBit_two_pow_sub_one]

theorem testBit_of_ge_256 {s : Nat} (hs : s < u256size) {i : Nat} (hi : 256 ≤ i) :
    s.testBit i = false := by
  apply Nat.testBit_lt_two_pow
  calc s < 2 ^ 256 := hs
    _ ≤ 2 ^ i := Nat.pow_le_pow_right (by omega) hi

/-! ### RangeInclusive iterator lemmas -/

theorem RangeIncl.toList_eq_nil {r : RangeIncl} (h : r.isEmpty = true) : r.toList = [] := by
  simp [RangeIncl.toList, h]

theorem RangeIncl.not_isEmpty {r : RangeIncl} (hne : ¬ r.isEmpty = true) :
    r.exhausted = false ∧ r.lo ≤ r.hi := by
  constructor
  · cases hb : r.exhausted
    · rfl
    · exact absurd (by simp [RangeIncl.isEmpty, hb]) hne
  · by_contra hc
    exact hne (by simp [RangeIncl.isEmpty]; omega)

theorem RangeIncl.length_toList (r : RangeIncl) : r.toList.length = r.length := by
  simp only [RangeIncl.toList, RangeIncl.length]
  split
  · rfl
  · rename_i hne
    have := RangeIncl.not_isEmpty hne
    simp only [List.length_range']
    omega

theorem RangeIncl.next_none {r r₂ : RangeIncl} (h : r.next = (none, r₂)) :
    r.toList = [] ∧ r₂ = r := by
  unfold RangeIncl.next at h
  split at h
  · injection h with h1 h2
    subst h2
    exact ⟨RangeIncl.toList_eq_nil (by assumption), rfl⟩
  · split at h <;> simp at h

theorem RangeIncl.next_some {r r' : RangeIncl} {v : Nat} (h : r.next = (some v, r')) :
    r.toList = v :: r'.toList ∧ r.length = r'.length + 1 := by
  unfold RangeIncl.next at h
  split at h
  · simp at h
  · rename_i hne
    obtain ⟨hex, hle⟩ := RangeIncl.not_isEmpty hne
    have hEmpF : r.isEmpty = false := by simp [RangeIncl.isEmpty, hex]; omega
    split at h
    · rename_i hlt
      injection h with h1 h2
      injection h1 with h1
      subst h1
      subst h2
      have hEmpF' : RangeIncl.isEmpty ⟨r.lo + 1, r.hi, r.exhausted⟩ = false := by
        simp [RangeIncl.isEmpty, hex]; omega
      constructor
      · simp only [RangeIncl.toList, hEmpF, hEmpF', Bool.false_eq_true, if_false]
        have e1 : r.hi + 1 - r.lo = (r.hi + 1 - (r.lo + 1)) + 1 := by omega
        rw [e1, List.range'_succ]
      · simp only [RangeIncl.length, hEmpF, hEmpF', Bool.false_eq_true, if_false]
        omega
    · rename_i hnlt
      injection h with h1 h2
      injection h1 with h1
      subst h1
      subst h2
      have hEmpT : RangeIncl.isEmpty ⟨r.lo, r.hi, true⟩ = true := by
        simp [RangeIncl.isEmpty]
      constructor
      · simp only [RangeIncl.toList, hEmpF, hEmpT, Bool.false_eq_true, if_false, if_true]
        have e1 : r.hi + 1 - r.lo = 1 := by omega
        rw [e1, List.range'_succ]
        simp
      · simp only [RangeIncl.length, hEmpF, hEmpT, Bool.false_eq_true, if_false, if_true]
        omega

theorem RangeIncl.nextBack_none {r r₂ : RangeIncl} (h : r.nextBack = (none, r₂)) :
    r.toList = [] ∧ r₂ = r := by
  unfold RangeIncl.nextBack at h
  split at h
  · injection h with h1 h2
    subst h2
    exact ⟨RangeIncl.toList_eq_nil (by assumption), rfl⟩
  · split at h <;> simp at h

theorem RangeIncl.nextBack_some {r r' : RangeIncl} {v : Nat} (h : r.nextBack = (some v, r')) :
    r.toList = r'.toList ++ [v] ∧ r.length = r'.length + 1 := by
  unfold RangeIncl.nextBack at h
  split at h
  · simp at h
  · rename_i hne
    obtain ⟨hex, hle⟩ := RangeIncl.not_isEmpty hne
    have hEmpF : r.isEmpty = false := by simp [RangeIncl.isEmpty, hex]; omega
    split at h
    · rename_i hlt
      injection h with h1 h2
      injection h1 with h1
      subst h1
      subst h2
      have hEmpF' : RangeIncl.isEmpty ⟨r.lo, r.hi - 1, r.exhausted⟩ = false := by
        simp [RangeIncl.isEmpty, hex]; omega
      constructor
      · simp only [RangeIncl.toList, hEmpF, hEmpF', Bool.false_eq_true, if_false]
        have e1 : r.hi + 1 - r.lo = (r.hi - r.lo) + 1 := by omega
        have e2 : r.hi - 1 + 1 - r.lo = r.hi - r.lo := by omega
        have e4 : r.lo + 1 * (r.hi - r.lo) = r.hi := by omega
        rw [e1, e2, List.range'_concat, e4]
      · simp only [RangeIncl.length, hEmpF, hEmpF', Bool.false_eq_true, if_false]
        omega
    · rename_i hnlt
      injection h with h1 h2
      injection h1 with h1
      subst h1
      subst h2
      have hEmpT : RangeIncl.isEmpty ⟨r.lo, r.hi, true⟩ = true := by
        simp [RangeIncl.isEmpty]
      constructor
      · simp only [RangeIncl.toList, hEmpF, hEmpT, Bool.false_eq_true, if_false, if_true]
        have e1 : r.hi + 1 - r.lo = 1 := by omega
        have e2 : r.lo = r.hi := by omega
        rw [e1, List.range'_succ]
        simp [e2]
      · simp only [RangeIncl.length, hEmpF, hEmpT, Bool.false_eq_true, if_false, if_true]
        omega

/-! ### Element iterator traces -/

theorem iterFrontFuel_eq (s : Nat) :
    ∀ (fuel : Nat) (r : RangeIncl), r.length ≤ fuel →
      iterFrontFuel s fuel r = r.toList.filter (fun v => contains s v) := by
  intro fuel
  induction fuel with
  | zero =>
    intro r hr
    have h0 : r.toList.length = 0 := by rw [RangeIncl.length_toList]; omega
    rw [List.length_eq_zero] at h0
    simp [iterFrontFuel, h0]
  | succ fuel ih =>
    intro r hr
    rcases h : r.next with ⟨o, r'⟩
    cases o with
    | none =>
      obtain ⟨hnil, -⟩ := RangeIncl.next_none h
      simp [iterFrontFuel, h, hnil]
    | some v =>
      obtain ⟨hcons, hlen⟩ := RangeIncl.next_some h
      have hr' : r'.length ≤ fuel := by omega
      simp only [iterFrontFuel, h, hcons, List.filter_cons]
      cases hc : contains s v <;> simp [ih r' hr']

theorem iterBackFuel_eq (s : Nat) :
    ∀ (fuel : Nat) (r : RangeIncl), r.length ≤ fuel →
      iterBackFuel s fuel r = (r.toList.filter (fun v => contains s v)).reverse := by
  intro fuel
  induction fuel with
  | zero =>
    intro r hr
    have h0 : r.toList.length = 0 := by rw [RangeIncl.length_toList]; omega
    rw [List.length_eq_zero] at h0
    simp [iterBackFuel, h0]
  | succ fuel ih =>
    intro r hr
    rcases h : r.nextBack with ⟨o, r'⟩
    cases o with
    | none =>
      obtain ⟨hnil, -⟩ := RangeIncl.nextBack_none h
      simp [iterBackFuel, h, hnil]
    | some v =>
      obtain ⟨hcons, hlen⟩ := RangeIncl.nextBack_some h
      have hr' : r'.length ≤ fuel := by omega
      simp only [iterBackFuel, h, hcons, List.filter_append, List.reverse_append]
      cases hc : contains s v <;> simp [ih r' hr', hc]

/-! ### Characterization of `min?`, `max?` and `range` -/

theorem find?_range'_eq_some {p : Nat → Bool} :
    ∀ (n a v : Nat), (List.range' a n).find? p = some v →
      p v = true ∧ a ≤ v ∧ v < a + n ∧ ∀ w, a ≤ w → w < v → p w = false := by
  intro n
  induction n with
  | zero => simp
  | succ n ih =>
    intro a v h
    rw [List.range'_succ] at h
    by_cases hpa : p a
    · rw [List.find?_cons_of_pos _ hpa] at h
      injection h with h
      subst h
      exact ⟨hpa, Nat.le_refl _, by omega, fun w hw1 hw2 => absurd (Nat.lt_of_le_of_lt hw1 hw2) (Nat.lt_irrefl _)⟩
    · rw [List.find?_cons_of_neg _ hpa] at h
      obtain ⟨h1, h2, h3, h4⟩ := ih (a + 1) v h
      refine ⟨h1, by omega, by omega, ?_⟩
      intro w hw1 hw2
      rcases Nat.eq_or_lt_of_le hw1 with rfl | hw
      · exact Bool.eq_false_iff.mpr hpa
      · exact h4 w hw hw2

theorem find?_range'_eq_none {p : Nat → Bool} {n a : Nat}
    (h : (List.range' a n).find? p = none) :
    ∀ w, a ≤ w → w < a + n → p w = false := by
  intro w hw1 hw2
  have := List.find?_eq_none.mp h w (by rw [List.mem_range']; exact ⟨w - a, by omega⟩)
  exact Bool.eq_false_iff.mpr this

theorem mem_descRange {w : Nat} : ∀ {n : Nat}, w ∈ descRange n ↔ w < n := by
  intro n
  induction n with
  | zero => simp [descRange]
  | succ n ih => simp [descRange, ih]; omega

theorem find?_descRange_eq_some {p : Nat → Bool} :
    ∀ (n v : Nat), (descRange n).find? p = some v →
      p v = true ∧ v < n ∧ ∀ w, v < w → w < n → p w = false := by
  intro n
  induction n with
  | zero => simp [descRange]
  | succ n ih =>
    intro v h
    rw [descRange] at h
    by_cases hpn : p n
    · rw [List.find?_cons_of_pos _ hpn] at h
      injection h with h
      subst h
      exact ⟨hpn, by omega, fun w hw1 hw2 => by omega⟩
    · rw [List.find?_cons_of_neg _ hpn] at h
      obtain ⟨h1, h2, h3⟩ := ih v h
      refine ⟨h1, by omega, ?_⟩
      intro w hw1 hw2
      rcases Nat.lt_or_ge w n with hw | hw
      · exact h3 w hw1 hw
      · have : w = n := by omega
        subst this
        exact Bool.eq_false_iff.mpr hpn

theorem find?_descRange_eq_none {p : Nat → Bool} {n : Nat}
    (h : (descRange n).find? p = none) :
    ∀ w, w < n → p w = false := by
  intro w hw
  exact Bool.eq_false_iff.mpr (List.find?_eq_none.mp h w (mem_descRange.mpr hw))

theorem min?_spec {s mn : Nat} (h : min? s = some mn) :
    s.testBit mn = true ∧ mn < 256 ∧ ∀ w, w < mn → s.testBit w = false := by
  rw [min?, List.range_eq_range'] at h
  obtain ⟨h1, h2, h3, h4⟩ := find?_range'_eq_some 256 0 mn h
  exact ⟨h1, by omega, fun w hw => h4 w (Nat.zero_le _) hw⟩

theorem min?_none {s : Nat} (h : min? s = none) : ∀ w, w < 256 → s.testBit w = false := by
  rw [min?, List.range_eq_range'] at h
  intro w hw
  exact find?_range'_eq_none h w (Nat.zero_le _) (by omega)

theorem max?_spec {s mx : Nat} (h : max? s = some mx) :
    s.testBit mx = true ∧ mx < 256 ∧ ∀ w, mx < w → w < 256 → s.testBit w = false := by
  exact find?_descRange_eq_some 256 mx h

theorem max?_none {s : Nat} (h : max? s = none) : ∀ w, w < 256 → s.testBit w = false :=
  find?_descRange_eq_none h

theorem eq_zero_of_low_bits_false {s : Nat} (hs : s < u256size)
    (h : ∀ w, w < 256 → s.testBit w = false) : s = 0 := by
  apply Nat.eq_of_testBit_eq
  intro i
  rw [Nat.zero_testBit]
  rcases Nat.lt_or_ge i 256 with hi | hi
  · exact h i hi
  · exact testBit_of_ge_256 hs hi

theorem contains_zero (v : Nat) : contains 0 v = false := by
  simp [contains]

theorem range_toList_filter {s : Nat} (hs : s < u256size) :
    (range s).toList.filter (fun v => contains s v)
      = (List.range 256).filter (fun v => contains s v) := by
  rcases hmin : min? s with _ | mn <;> rcases hmax : max? s with _ | mx
  · have hz : s = 0 := eq_zero_of_low_bits_false hs (min?_none hmin)
    subst hz
    have hr : range 0 = ⟨1, 0, false⟩ := by simp [range, hmin, hmax]
    rw [hr]
    have hnil : RangeIncl.toList ⟨1, 0, false⟩ = [] := RangeIncl.toList_eq_nil (by decide)
    rw [hnil]
    simp [contains_zero]
  · obtain ⟨hbmx, hmx256, -⟩ := max?_spec hmax
    rw [min?_none hmin mx hmx256] at hbmx
    exact absurd hbmx (by simp)
  · obtain ⟨hbmn, hmn256, -⟩ := min?_spec hmin
    rw [max?_none hmax mn hmn256] at hbmn
    exact absurd hbmn (by simp)
  · obtain ⟨hbmn, hmn256, hmnlow⟩ := min?_spec hmin
    obtain ⟨hbmx, hmx256, hmxhigh⟩ := max?_spec hmax
    have hle : mn ≤ mx := by
      by_contra hc
      have := hmxhigh mn (by omega) hmn256
      rw [this] at hbmn
      exact Bool.false_ne_true hbmn
    have hr : range s = ⟨mn, mx, false⟩ := by simp [range, hmin, hmax]
    rw [hr]
    have hEmpF : RangeIncl.isEmpty ⟨mn, mx, false⟩ = false := by
      simp [RangeIncl.isEmpty]
      omega
    have htl : RangeIncl.toList ⟨mn, mx, false⟩ = List.range' mn (mx + 1 - mn) := by
      simp [RangeIncl.toList, hEmpF]
    have hsplit : List.range' 0 256 =
        List.range' 0 mn ++ List.range' mn (mx + 1 - mn) ++ List.range' (mx + 1) (255 - mx) := by
      rw [List.append_assoc]
      have e1 : List.range' mn (mx + 1 - mn) ++ List.range' (mx + 1) (255 - mx)
          = List.range' mn (256 - mn) := by
        have h2 := List.range'_append_1 mn (mx + 1 - mn) (255 - mx)
        rw [show mn + (mx + 1 - mn) = mx + 1 by omega] at h2
        rw [h2, show 255 - mx + (mx + 1 - mn) = 256 - mn by omega]
      rw [e1]
      have h3 := List.range'_append_1 0 mn (256 - mn)
      rw [show 0 + mn = mn by omega] at h3
      rw [h3, show 256 - mn + mn = 256 by omega]
    rw [htl, List.range_eq_range', hsplit, List.filter_append, List.filter_append]
    have hlow : (List.range' 0 mn).filter (fun v => contains s v) = [] := by
      rw [List.filter_eq_nil_iff]
      intro a ha
      rw [List.mem_range'] at ha
      obtain ⟨i, hi, rfl⟩ := ha
      simp [contains_eq_testBit]
      exact hmnlow i hi
    have hhigh : (List.range' (mx + 1) (255 - mx)).filter (fun v => contains s v) = [] := by
      rw [List.filter_eq_nil_iff]
      intro a ha
      rw [List.mem_range'] at ha
      obtain ⟨i, hi, rfl⟩ := ha
      simp [contains_eq_testBit]
      exact hmxhigh (mx + 1 + i) (by omega) (by omega)
    rw [hlow, hhigh]
    simp

theorem iterFront_eq {s : Nat} (hs : s < u256size) :
    iterFront s = (List.range 256).filter (fun v => contains s v) := by
  rw [iterFront, iterFrontFuel_eq s _ _ (Nat.le_refl _), range_toList_filter hs]

theorem iterBack_eq {s : Nat} (hs : s < u256size) :
    iterBack s = ((List.range 256).filter (fun v => contains s v)).reverse := by
  rw [iterBack, iterBackFuel_eq s _ _ (Nat.le_refl _), range_toList_filter hs]

theorem mem_iterFront {s v : Nat} (hs : s < u256size) (hv : v < 256) :
    (v ∈ iterFront s) ↔ s.testBit v = true := by
  rw [iterFront_eq hs]
  simp [List.mem_filter, List.mem_range, contains_eq_testBit, hv]

theorem iterFront_all_lt {s : Nat} (hs : s < u256size) :
    ∀ v, v ∈ iterFront s → v < 256 := by
  intro v hv
  rw [iterFront_eq hs] at hv
  exact List.mem_range.mp (List.mem_filter.mp hv).1

/-! ### Pair iterator lemmas -/

theorem PairsImpl.next_none' {p q : PairsImpl} (h : p.next = (none, q)) :
    q = p ∧ p.range.toList = [] := by
  rcases hr : p.range.next with ⟨o, r'⟩
  cases o with
  | none =>
    obtain ⟨hnil, heq⟩ := RangeIncl.next_none hr
    simp only [PairsImpl.next, hr] at h
    injection h with h1 h2
    subst h2
    exact ⟨by rw [heq], hnil⟩
  | some v => simp [PairsImpl.next, hr] at h

theorem PairsImpl.next_some' {p q : PairsImpl} {x : Nat × Bool} (h : p.next = (some x, q)) :
    ∃ v, x = (v, contains p.set v) ∧ q.set = p.set ∧
      p.range.toList = v :: q.range.toList ∧ p.range.length = q.range.length + 1 := by
  rcases hr : p.range.next with ⟨o, r'⟩
  cases o with
  | none => simp [PairsImpl.next, hr] at h
  | some v =>
    obtain ⟨hcons, hlen⟩ := RangeIncl.next_some hr
    simp only [PairsImpl.next, hr] at h
    injection h with h1 h2
    injection h1 with h1
    subst h2
    exact ⟨v, h1.symm, rfl, hcons, hlen⟩

theorem PairsImpl.nextBack_none' {p q : PairsImpl} (h : p.nextBack = (none, q)) :
    q = p ∧ p.range.toList = [] := by
  rcases hr : p.range.nextBack with ⟨o, r'⟩
  cases o with
  | none =>
    obtain ⟨hnil, heq⟩ := RangeIncl.nextBack_none hr
    simp only [PairsImpl.nextBack, hr] at h
    injection h with h1 h2
    subst h2
    exact ⟨by rw [heq], hnil⟩
  | some v => simp [PairsImpl.nextBack, hr] at h

theorem PairsImpl.nextBack_some' {p q : PairsImpl} {x : Nat × Bool} (h : p.nextBack = (some x, q)) :
    ∃ v, x = (v, contains p.set v) ∧ q.set = p.set ∧
      p.range.toList = q.range.toList ++ [v] ∧ p.range.length = q.range.length + 1 := by
  rcases hr : p.range.nextBack with ⟨o, r'⟩
  cases o with
  | none => simp [PairsImpl.nextBack, hr] at h
  | some v =>
    obtain ⟨hcons, hlen⟩ := RangeIncl.nextBack_some hr
    simp only [PairsImpl.nextBack, hr] at h
    injection h with h1 h2
    injection h1 with h1
    subst h2
    exact ⟨v, h1.symm, rfl, hcons, hlen⟩

theorem PairsImpl.run_length :
    ∀ (moves : List Bool) (p : PairsImpl),
      (p.run moves).1.length + (p.run moves).2.length = p.length := by
  intro moves
  induction moves with
  | nil =>
    intro p
    simp [PairsImpl.run]
  | cons back moves ih =>
    intro p
    rcases h : (if back then p.nextBack else p.next) with ⟨o, q⟩
    cases o with
    | none =>
      have hq : q = p := by
        cases back
        · exact (PairsImpl.next_none' (by simpa using h)).1
        · exact (PairsImpl.nextBack_none' (by simpa using h)).1
      have hrun : p.run (back :: moves) = q.run moves := by
        simp only [PairsImpl.run, h]
      rw [hrun, ih, hq]
    | some x =>
      have hlen : p.length = q.length + 1 := by
        cases back
        · obtain ⟨v, -, -, -, hl⟩ := PairsImpl.next_some' (by simpa using h)
          simpa [PairsImpl.length] using hl
        · obtain ⟨v, -, -, -, hl⟩ := PairsImpl.nextBack_some' (by simpa using h)
          simpa [PairsImpl.length] using hl
      have hrun : p.run (back :: moves) = (x :: (q.run moves).1, (q.run moves).2) := by
        simp only [PairsImpl.run, h]
      rw [hrun]
      simp only [List.length_cons]
      have := ih q
      omega

theorem PairsImpl.run_front :
    ∀ (n : Nat) (p : PairsImpl),
      (p.run (List.replicate n false)).1
        = (p.range.toList.map (fun v => (v, contains p.set v))).take n := by
  intro n
  induction n with
  | zero =>
    intro p
    simp [PairsImpl.run]
  | succ n ih =>
    intro p
    rw [List.replicate_succ]
    rcases h : p.next with ⟨o, q⟩
    cases o with
    | none =>
      obtain ⟨hq, hnil⟩ := PairsImpl.next_none' h
      have hrun : p.run (false :: List.replicate n false) = q.run (List.replicate n false) := by
        simp only [PairsImpl.run, Bool.false_eq_true, if_false, h]
      rw [hrun, hq, ih, hnil]
      simp
    | some x =>
      obtain ⟨v, hx, hset, hcons, -⟩ := PairsImpl.next_some' h
      have hrun : p.run (false :: List.replicate n false)
          = (x :: (q.run (List.replicate n false)).1, (q.run (List.replicate n false)).2) := by
        simp only [PairsImpl.run, Bool.false_eq_true, if_false, h]
      rw [hrun]
      simp only [ih, hcons, hset, hx, List.map_cons, List.take_succ_cons]

theorem PairsImpl.run_back :
    ∀ (n : Nat) (p : PairsImpl),
      (p.run (List.replicate n true)).1
        = ((p.range.toList.map (fun v => (v, contains p.set v))).reverse).take n := by
  intro n
  induction n with
  | zero =>
    intro p
    simp [PairsImpl.run]
  | succ n ih =>
    intro p
    rw [List.replicate_succ]
    rcases h : p.nextBack with ⟨o, q⟩
    cases o with
    | none =>
      obtain ⟨hq, hnil⟩ := PairsImpl.nextBack_none' h
      have hrun : p.run (true :: List.replicate n true) = q.run (List.replicate n true) := by
        simp only [PairsImpl.run, if_true, h]
      rw [hrun, hq, ih, hnil]
      simp
    | some x =>
      obtain ⟨v, hx, hset, hcons, -⟩ := PairsImpl.nextBack_some' h
      have hrun : p.run (true :: List.replicate n true)
          = (x :: (q.run (List.replicate n true)).1, (q.run (List.replicate n true)).2) := by
        simp only [PairsImpl.run, if_true, h]
      rw [hrun]
      simp only [ih, hcons, hset, hx, List.map_append, List.reverse_append,
        List.map_cons, List.map_nil, List.reverse_cons, List.reverse_nil]
      simp [List.take_succ_cons]

theorem PairsImpl.new_toList (s : Nat) :
    (PairsImpl.new s).range.toList = List.range 256 := by
  rw [List.range_eq_range']
  rfl

theorem PairsImpl.new_length (s : Nat) : (PairsImpl.new s).length = 256 := rfl

/-! ### Conversion and retain fold lemmas -/

theorem foldl_set_length :
    ∀ (l : List Nat) (arr : List Bool),
      (l.foldl (fun a v => a.set v true) arr).length = arr.length := by
  intro l
  induction l with
  | nil => intro arr; rfl
  | cons a l ih =>
    intro arr
    simp only [List.foldl_cons]
    rw [ih, List.length_set]

theorem foldl_set_getD {i : Nat} :
    ∀ (l : List Nat) (arr : List Bool), (∀ v, v ∈ l → v < arr.length) →
      ((l.foldl (fun a v => a.set v true) arr).getD i false = true
        ↔ (arr.getD i false = true ∨ i ∈ l)) := by
  intro l
  induction l with
  | nil =>
    intro arr _
    simp
  | cons a l ih =>
    intro arr hb
    have ha : a < arr.length := hb a (List.mem_cons_self a l)
    simp only [List.foldl_cons]
    rw [ih (arr.set a true) (by
      intro v hv
      rw [List.length_set]
      exact hb v (List.mem_cons_of_mem a hv))]
    have hset : ((arr.set a true).getD i false = true ↔ (arr.getD i false = true ∨ i = a)) := by
      rcases eq_or_ne a i with rfl | hne
      · simp [List.getD_eq_getElem?_getD, List.getElem?_set_self ha]
      · have hne' : ¬ (i = a) := fun h => hne h.symm
        simp [List.getD_eq_getElem?_getD, List.getElem?_set_ne hne, hne']
    rw [hset, List.mem_cons]
    tauto

theorem foldl_insert_testBit (vals : List Bool) (j : Nat) :
    ∀ (l : List Nat) (s0 : Nat),
      ((l.foldl (fun s i => if vals.getD i false then (insert s i).1 else s) s0).testBit j = true
        ↔ (s0.testBit j = true ∨ (j ∈ l ∧ vals.getD j false = true))) := by
  intro l
  induction l with
  | nil => simp
  | cons a l ih =>
    intro s0
    simp only [List.foldl_cons]
    rw [ih]
    have hstep : ((if vals.getD a false then (insert s0 a).1 else s0).testBit j = true
        ↔ (s0.testBit j = true ∨ (j = a ∧ vals.getD j false = true))) := by
      rcases eq_or_ne j a with rfl | hne
      · by_cases hv : vals.getD j false = true
        · rw [if_pos hv]
          simp only [List.getD_eq_getElem?_getD] at hv
          simp [insert, mask_eq, Nat.testBit_or, Nat.testBit_two_pow, hv]
        · rw [if_neg hv]
          simp only [List.getD_eq_getElem?_getD] at hv
          simp [hv]
      · by_cases hv : vals.getD a false = true
        · rw [if_pos hv]
          simp [insert, mask_eq, Nat.testBit_or, Nat.testBit_two_pow_of_ne hne.symm, hne]
        · rw [if_neg hv]
          simp [hne]
    rw [hstep, List.mem_cons]
    tauto

theorem foldl_insert_lt (vals : List Bool) :
    ∀ (l : List Nat) (s0 : Nat), (∀ i, i ∈ l → i < 256) → s0 < u256size →
      (l.foldl (fun s i => if vals.getD i false then (insert s i).1 else s) s0) < u256size := by
  intro l
  induction l with
  | nil =>
    intro s0 _ hs0
    exact hs0
  | cons a l ih =>
    intro s0 hb hs0
    simp only [List.foldl_cons]
    apply ih _ (fun i hi => hb i (List.mem_cons_of_mem a hi))
    by_cases hv : vals.getD a false = true
    · have ha : a < 256 := hb a (List.mem_cons_self a l)
      have hpow : (2 : Nat) ^ a < 2 ^ 256 := Nat.pow_lt_pow_right (by omega) ha
      simp only [hv, if_true, insert, mask_eq]
      exact Nat.or_lt_two_pow hs0 hpow
    · simp only [hv, if_false]
      exact hs0

theorem foldl_remove_testBit (f : Nat → Bool) {v : Nat} (hv : v < 256) :
    ∀ (l : List Nat) (acc : Nat),
      ((l.foldl (fun acc w => if !f w then (remove acc w).1 else acc) acc).testBit v = true
        ↔ (acc.testBit v = true ∧ (v ∈ l → f v = true))) := by
  intro l
  induction l with
  | nil => simp
  | cons a l ih =>
    intro acc
    simp only [List.foldl_cons]
    rw [ih]
    have hstep : ((if !f a then (remove acc a).1 else acc).testBit v = true
        ↔ (acc.testBit v = true ∧ (v = a → f v = true))) := by
      by_cases hf : f a = true
      · simp only [hf, Bool.not_true, Bool.false_eq_true, if_false]
        constructor
        · exact fun hb => ⟨hb, fun hva => by rw [hva]; exact hf⟩
        · exact fun h => h.1
      · rcases eq_or_ne v a with rfl | hne
        · simp [hf, remove, mask_eq, Nat.testBit_and, testBit_u256not,
            Nat.testBit_two_pow_self, hv]
        · simp [hf, remove, mask_eq, Nat.testBit_and, testBit_u256not,
            Nat.testBit_two_pow_of_ne hne.symm, hv, hne]
    rw [hstep, List.mem_cons]
    tauto

theorem toBoolArray_length (s : Nat) : (toBoolArray s).length = 256 := by
  rw [toBoolArray, foldl_set_length, List.length_replicate]

theorem toBoolArray_getD {s : Nat} (hs : s < u256size) {i : Nat} (hi : i < 256) :
    ((toBoolArray s).getD i false = true ↔ s.testBit i = true) := by
  have hrep : (List.replicate 256 false).getD i false = false := by
    rw [List.getD_eq_getElem?_getD, List.getElem?_replicate]
    split <;> rfl
  rw [toBoolArray, foldl_set_getD _ _ (by
    intro v hv
    rw [List.length_replicate]
    exact iterFront_all_lt hs v hv)]
  rw [mem_iterFront hs hi, hrep]
  simp

theorem fromBoolArray_testBit (vals : List Bool) (j : Nat) :
    ((fromBoolArray vals).testBit j = true ↔ (j < 256 ∧ vals.getD j false = true)) := by
  rw [fromBoolArray, foldl_insert_testBit, Nat.zero_testBit]
  simp only [Bool.false_eq_true, false_or, List.mem_range]

theorem fromBoolArray_lt (vals : List Bool) : fromBoolArray vals < u256size := by
  rw [fromBoolArray]
  apply foldl_insert_lt vals _ _ (fun i hi => List.mem_range.mp hi)
  exact Nat.two_pow_pos 256

/-! ### Arithmetic-bitwise identity -/

theorem xor_add_land (a b : Nat) : (a ^^^ b) + (a &&& b) = a ||| b := by
  induction a using Nat.strong_induction_on generalizing b with
  | _ a ih =>
    rcases Nat.eq_zero_or_pos a with rfl | ha
    · simp
    · have ihh := ih (a / 2) (Nat.div_lt_self ha (by omega)) (b / 2)
      have hx : (a ^^^ b) / 2 = a / 2 ^^^ b / 2 := Nat.xor_div_two
      have hA : (a &&& b) / 2 = a / 2 &&& b / 2 := Nat.and_div_two
      have hO : (a ||| b) / 2 = a / 2 ||| b / 2 := Nat.or_div_two
      have dx := Nat.div_add_mod (a ^^^ b) 2
      have dA := Nat.div_add_mod (a &&& b) 2
      have dO := Nat.div_add_mod (a ||| b) 2
      have h1 : (a ^^^ b) % 2 = 1 ↔ ¬ ((a % 2 = 1) ↔ (b % 2 = 1)) := Nat.xor_mod_two_eq_one
      have h2 : (a &&& b) % 2 = 1 ↔ (a % 2 = 1 ∧ b % 2 = 1) := by
        rw [Nat.mod_two_eq_one_iff_testBit_zero, Nat.testBit_and, Bool.and_eq_true,
          ← Nat.mod_two_eq_one_iff_testBit_zero, ← Nat.mod_two_eq_one_iff_testBit_zero]
      have h3 : (a ||| b) % 2 = 1 ↔ (a % 2 = 1 ∨ b % 2 = 1) := by
        rw [Nat.mod_two_eq_one_iff_testBit_zero, Nat.testBit_or, Bool.or_eq_true,
          ← Nat.mod_two_eq_one_iff_testBit_zero, ← Nat.mod_two_eq_one_iff_testBit_zero]
      omega

/-! ### Claims -/

/-- C1: the spec says `difference(a, b)` is the bitwise `a AND NOT b`.  The
code computes the arithmetic `u256` subtraction `a.0 - b.0` instead: for
`a = {1}` (word 2) and `b = {0}` (word 1) it returns the word 1, i.e. the set
`{0}`, which drops `1 ∈ a \ b` and invents `0 ∉ a`. -/
theorem claim_C1 :
    difference 2 1 = some 1 ∧ contains 2 1 = true ∧ contains 1 1 = false
      ∧ contains 2 0 = false ∧ contains 1 0 = true := by
  decide

/-- C2: the spec says `toggle(v)` returns the post-toggle membership state of
`v`.  The code returns `(mask & self.0) == 0`, the NEGATION of the post-toggle
state: toggling `0` into the empty set leaves `0` present but returns
`false`. -/
theorem claim_C2 :
    (toggle 0 0).1 = 1 ∧ contains (toggle 0 0).1 0 = true ∧ (toggle 0 0).2 = false := by
  decide

/-- C3: the spec says every operation is total and never fails at runtime.
`difference` performs an arithmetic `u256` subtraction, which underflows for
`a = {}` (word 0) and `b = {0}` (word 1): a Rust panic when overflow checks
are enabled (modelled as `none`), a wrap-around otherwise. -/
theorem claim_C3 : difference 0 1 = none := by
  decide

/-- C4: `insert(v)` returns `true` iff `v` was absent immediately before the
call, `remove(v)` returns `true` iff `v` was present immediately before, and
afterwards the bit for `v` is set resp. cleared. -/
theorem claim_C4 (s v : Nat) (hs : s < u256size) (hv : v < 256) :
    (insert s v).2 = !s.testBit v
  ∧ (insert s v).1.testBit v = true
  ∧ (remove s v).2 = s.testBit v
  ∧ (remove s v).1.testBit v = false := by
  refine ⟨?_, ?_, ?_, ?_⟩
  · cases h : s.testBit v
    · have hne : s ≠ s ||| mask v := by
        intro he
        have hb : (s ||| mask v).testBit v = true := by
          simp [mask_eq, Nat.testBit_or]
        rw [← he] at hb
        simp [h] at hb
      simp [insert, bne_iff_ne, hne]
    · have he : s ||| mask v = s := by
        apply Nat.eq_of_testBit_eq
        intro i
        rw [Nat.testBit_or, mask_eq, Nat.testBit_two_pow]
        rcases eq_or_ne v i with rfl | hne
        · simp [h]
        · simp [hne]
      simp [insert, he]
  · simp [insert, mask_eq, Nat.testBit_or]
  · cases h : s.testBit v
    · have he : s &&& u256not (mask v) = s := by
        apply Nat.eq_of_testBit_eq
        intro i
        rw [Nat.testBit_and, testBit_u256not, mask_eq, Nat.testBit_two_pow]
        rcases eq_or_ne v i with rfl | hne
        · simp [h, hv]
        · rcases Nat.lt_or_ge i 256 with hi | hi
          · simp [hne, hi]
          · simp [hne, Nat.not_lt.mpr hi, testBit_of_ge_256 hs hi]
      simp [remove, he]
    · have hne : s ≠ s &&& u256not (mask v) := by
        intro he
        have hb : (s &&& u256not (mask v)).testBit v = false := by
          rw [Nat.testBit_and, testBit_u256not, mask_eq, Nat.testBit_two_pow]
          simp [hv]
        rw [← he] at hb
        simp [h] at hb
      simp [remove, bne_iff_ne, hne]
  · rw [remove]
    simp only [Nat.testBit_and, testBit_u256not, mask_eq, Nat.testBit_two_pow]
    simp [hv]

/-- Witness for C4 at `s = 5 = {0, 2}` and `v = 1`. -/
theorem claim_C4_witness :
    5 < u256size ∧ 1 < 256
  ∧ ((insert 5 1).2 = !(5 : Nat).testBit 1
      ∧ (insert 5 1).1.testBit 1 = true
      ∧ (remove 5 1).2 = (5 : Nat).testBit 1
      ∧ (remove 5 1).1.testBit 1 = false) :=
  ⟨by decide, by decide, claim_C4 5 1 (by decide) (by decide)⟩

/-- C5: consumed from the front, the element iterator yields exactly the
ascending list of the values the set contains (the canonical filtered
enumeration of `0..=255`, which is strictly sorted and duplicate-free);
consumed from the back it yields the reverse; its total count is `len`; the
empty set yields nothing. -/
theorem claim_C5 (s : Nat) (hs : s < u256size) :
    iterFront s = (List.range 256).filter (fun v => contains s v)
  ∧ iterBack s = ((List.range 256).filter (fun v => contains s v)).reverse
  ∧ (iterFront s).length = len s
  ∧ List.Pairwise (· < ·) (iterFront s)
  ∧ iterFront 0 = [] := by
  refine ⟨iterFront_eq hs, iterBack_eq hs, ?_, ?_, by decide⟩
  · rw [iterFront_eq hs, len, List.filter_congr (fun x _ => contains_eq_testBit s x)]
  · rw [iterFront_eq hs]
    exact List.Pairwise.filter _ (List.sorted_lt_range 256)

/-- Witness for C5 at `s = 37 = {0, 2, 5}`. -/
theorem claim_C5_witness :
    37 < u256size ∧ iterFront 37 = (List.range 256).filter (fun v => contains 37 v) :=
  ⟨by decide, (claim_C5 37 (by decide)).1⟩

/-- C6: the pair iterator over the fixed domain: any number of front pulls
yields the prefix of the 256 ascending pairs `(v, contains v)`, any number of
back pulls the prefix of their reversal, and after any mixed sequence of
pulls the produced count plus the reported length is exactly 256. -/
theorem claim_C6 (s : Nat) :
    (∀ n, ((PairsImpl.new s).run (List.replicate n false)).1
        = ((List.range 256).map (fun v => (v, contains s v))).take n)
  ∧ (∀ n, ((PairsImpl.new s).run (List.replicate n true)).1
        = (((List.range 256).map (fun v => (v, contains s v))).reverse).take n)
  ∧ (∀ moves, ((PairsImpl.new s).run moves).1.length
        + ((PairsImpl.new s).run moves).2.length = 256) := by
  refine ⟨?_, ?_, ?_⟩
  · intro n
    rw [PairsImpl.run_front, PairsImpl.new_toList]
    rfl
  · intro n
    rw [PairsImpl.run_back, PairsImpl.new_toList]
    rfl
  · intro moves
    rw [PairsImpl.run_length, PairsImpl.new_length]

/-- C7: the conversions between a set and a 256-entry boolean array round-trip
exactly in both directions. -/
theorem claim_C7 (s : Nat) (vals : List Bool) (hs : s < u256size)
    (hv : vals.length = 256) :
    fromBoolArray (toBoolArray s) = s ∧ toBoolArray (fromBoolArray vals) = vals := by
  constructor
  · apply Nat.eq_of_testBit_eq
    intro j
    rcases Nat.lt_or_ge j 256 with hj | hj
    · rw [Bool.eq_iff_iff, fromBoolArray_testBit]
      constructor
      · rintro ⟨-, hg⟩
        exact (toBoolArray_getD hs hj).mp hg
      · intro hb
        exact ⟨hj, (toBoolArray_getD hs hj).mpr hb⟩
    · rw [testBit_of_ge_256 hs hj]
      exact testBit_of_ge_256 (fromBoolArray_lt _) hj
  · apply List.ext_getElem
    · rw [toBoolArray_length, hv]
    · intro i h1 h2
      have hi : i < 256 := by
        rw [toBoolArray_length] at h1
        exact h1
      have e1 : (toBoolArray (fromBoolArray vals))[i] = (toBoolArray (fromBoolArray vals)).getD i false := by
        rw [List.getD_eq_getElem?_getD, List.getElem?_eq_getElem h1]
        rfl
      have e2 : vals[i] = vals.getD i false := by
        rw [List.getD_eq_getElem?_getD, List.getElem?_eq_getElem h2]
        rfl
      rw [e1, e2, Bool.eq_iff_iff, toBoolArray_getD (fromBoolArray_lt vals) hi,
        fromBoolArray_testBit]
      constructor
      · rintro ⟨-, h⟩
        exact h
      · intro h
        exact ⟨hi, h⟩

/-- Witness for C7 at `s = 5` and the all-`false` array. -/
theorem claim_C7_witness :
    5 < u256size ∧ (List.replicate 256 false).length = 256
  ∧ (fromBoolArray (toBoolArray 5) = 5
      ∧ toBoolArray (fromBoolArray (List.replicate 256 false)) = List.replicate 256 false) :=
  ⟨by decide, by decide, claim_C7 5 (List.replicate 256 false) (by decide) (by decide)⟩

/-- C8: `symmetric_difference` agrees with `difference` of union by
intersection.  Although `difference` is an arithmetic subtraction (see C1),
`(a ||| b) - (a &&& b) = a ^^^ b` holds for all words, the subtraction never
underflows, and the claimed identity is true. -/
theorem claim_C8 (a b : Nat) :
    difference (union a b) (intersection a b) = some (symmetric_difference a b) := by
  have hid := xor_add_land a b
  rw [difference, u256sub, union, intersection, symmetric_difference, if_pos (by omega)]
  congr 1
  omega

/-- C9: `retain f` keeps exactly the previously-present values accepted by the
predicate; retaining the even values of `{1, 2, 3, 4, 5}` (word 62) yields
`{2, 4}` (word 20). -/
theorem claim_C9 (s v : Nat) (f : Nat → Bool) (hs : s < u256size) (hv : v < 256) :
    ((retain s f).testBit v = (s.testBit v && f v))
  ∧ retain 62 (fun w => w % 2 == 0) = 20 := by
  constructor
  · rw [Bool.eq_iff_iff, Bool.and_eq_true, retain, foldl_remove_testBit f hv]
    constructor
    · rintro ⟨hb, himp⟩
      exact ⟨hb, himp ((mem_iterFront hs hv).mpr hb)⟩
    · rintro ⟨hb, hf⟩
      exact ⟨hb, fun _ => hf⟩
  · decide

/-- Witness for C9 at `s = 37 = {0, 2, 5}`, `v = 0`, even predicate. -/
theorem claim_C9_witness :
    37 < u256size ∧ 0 < 256
  ∧ (((retain 37 (fun w => w % 2 == 0)).testBit 0
        = ((37 : Nat).testBit 0 && ((0 : Nat) % 2 == 0)))
      ∧ retain 62 (fun w => w % 2 == 0) = 20) :=
  ⟨by decide, by decide, claim_C9 37 0 (fun w => w % 2 == 0) (by decide) (by decide)⟩

/-- C10: `insert`, `remove`, `toggle` and `take` at `v` leave every other
bit `w ≠ v` unchanged. -/
theorem claim_C10 (s v w : Nat) (_hv : v < 256) (hw : w < 256) (hne : w ≠ v) :
    (insert s v).1.testBit w = s.testBit w
  ∧ (remove s v).1.testBit w = s.testBit w
  ∧ (toggle s v).1.testBit w = s.testBit w
  ∧ (take s v).1.testBit w = s.testBit w := by
  have hmw : (mask v).testBit w = false := by
    rw [mask_eq]
    exact Nat.testBit_two_pow_of_ne (fun h => hne h.symm)
  refine ⟨?_, ?_, ?_, ?_⟩
  · simp [insert, Nat.testBit_or, hmw]
  · simp [remove, Nat.testBit_and, testBit_u256not, hmw, hw]
  · simp [toggle, Nat.testBit_xor, hmw]
  · simp [take, remove, Nat.testBit_and, testBit_u256not, hmw, hw]

/-- Witness for C10 at `s = 5 = {0, 2}`, `v = 1`, `w = 2`. -/
theorem claim_C10_witness :
    1 < 256 ∧ 2 < 256 ∧ (2 : Nat) ≠ 1
  ∧ ((insert 5 1).1.testBit 2 = (5 : Nat).testBit 2
      ∧ (remove 5 1).1.testBit 2 = (5 : Nat).testBit 2
      ∧ (toggle 5 1).1.testBit 2 = (5 : Nat).testBit 2
      ∧ (take 5 1).1.testBit 2 = (5 : Nat).testBit 2) :=
  ⟨by decide, by decide, by decide, claim_C10 5 1 2 (by decide) (by decide) (by decide)⟩

end ByteSet

end Byteset
